import Mathlib

/-!
Formal model of the doubly-linked deque implemented in
src/nautilus_trader/core/deque.c.  Pointers are modelled as natural-number
addresses into an explicit finite heap of nodes; the null pointer is `none`.
Allocation hands out a fresh address from a monotone counter; `free` removes
the binding from the heap (freed addresses are never reused, so a dangling
pointer is an address with no heap binding).  Each C function is translated
statement by statement; an execution that would dereference a null or
dangling pointer, or whose `assert` fails, ends in a `fault` carrying the
deque memory as it was at the moment of the fault.
-/

/-- A heap node, mirroring `struct node_struct`: a next pointer (toward the
back), a prev pointer (toward the front) and the stored value. -/
structure Node where
  next : Option Nat
  prev : Option Nat
  val : Int
deriving DecidableEq

/-- The heap of live nodes: an association list from addresses to nodes. -/
abbrev Heap := List (Nat × Node)

/-- The deque header, mirroring `struct deque_struct` (head and tail
pointers), together with the allocator state: the heap of live nodes and the
next fresh address. -/
structure Deque where
  heap : Heap
  head : Option Nat
  tail : Option Nat
  fresh : Nat
deriving DecidableEq

/-- Reading the node stored at an address, `none` when the address is not
live (dangling or never allocated). -/
def heapLookup : Heap → Nat → Option Node
  | [], _ => none
  | (b, n) :: h, a => if a = b then some n else heapLookup h a

/-- Freeing an address: its binding disappears from the heap. -/
def heapFree : Heap → Nat → Heap
  | [], _ => []
  | (b, n) :: h, a => if b = a then heapFree h a else (b, n) :: heapFree h a

/-- The store `p->prev = q` for the node at address `a`. -/
def heapSetPrev : Heap → Nat → Option Nat → Heap
  | [], _, _ => []
  | (b, n) :: h, a, p =>
      if b = a then (b, { n with prev := p }) :: heapSetPrev h a p
      else (b, n) :: heapSetPrev h a p

/-- The store `p->next = q` for the node at address `a`. -/
def heapSetNext : Heap → Nat → Option Nat → Heap
  | [], _, _ => []
  | (b, n) :: h, a, q =>
      if b = a then (b, { n with next := q }) :: heapSetNext h a q
      else (b, n) :: heapSetNext h a q

/-- Result of running one deque operation: either a normal return (with the
returned value and the deque memory afterwards), or a fault — a failed
`assert` or an undefined null/dangling dereference — carrying the deque
memory as it was when the fault happened. -/
inductive DRes (α : Type) where
  | ok (ret : α) (after : Deque)
  | fault (at_fault : Deque)
deriving DecidableEq

/-- The deque produced by a result (the memory at return or at fault). -/
def resState {α : Type} : DRes α → Deque
  | .ok _ d => d
  | .fault d => d

/-- Model of `deque_alloc`: `allocOk` says whether `malloc` succeeds; on
failure the C function returns NULL, modelled as `none`. -/
def deque_alloc (allocOk : Bool) : Option Deque :=
  if allocOk then some { heap := [], head := none, tail := none, fresh := 0 }
  else none

/-- The freshly created deque, `deque_alloc` in the successful case. -/
def mkDeque : Deque := { heap := [], head := none, tail := none, fresh := 0 }

/-- Model of `deque_is_empty`: `return d->head == NULL`. -/
def deque_is_empty (d : Deque) : Bool := d.head.isNone

/-- Model of `deque_push_front`.  `allocOk` says whether the node `malloc`
succeeds; when it fails the C `assert` aborts before touching `d`.  In the
successful case the new node gets `next = d->head`, `prev = NULL`; then
either both ends are set to it (empty deque) or `d->head->prev = n;
d->head = n`.  The branch where `d->tail` is non-null but `d->head` is null
is the C null dereference of `d->head`, a fault (unreachable from well-formed
states). -/
def deque_push_front (allocOk : Bool) (d : Deque) (v : Int) : DRes Unit :=
  if allocOk then
    let a := d.fresh
    let n : Node := { next := d.head, prev := none, val := v }
    let h1 := (a, n) :: d.heap
    match d.tail with
    | none => .ok () { heap := h1, head := some a, tail := some a, fresh := a + 1 }
    | some _ =>
      match d.head with
      | some hA =>
          .ok () { heap := heapSetPrev h1 hA (some a), head := some a,
                   tail := d.tail, fresh := a + 1 }
      | none => .fault { d with heap := h1, fresh := a + 1 }
  else .fault d

/-- Model of `deque_push_back`, mirror image of `deque_push_front`: the new
node gets `prev = d->tail`, `next = NULL`; then either both ends are set to
it (empty deque) or `d->tail->next = n; d->tail = n`. -/
def deque_push_back (allocOk : Bool) (d : Deque) (v : Int) : DRes Unit :=
  if allocOk then
    let a := d.fresh
    let n : Node := { next := none, prev := d.tail, val := v }
    let h1 := (a, n) :: d.heap
    match d.head with
    | none => .ok () { heap := h1, head := some a, tail := some a, fresh := a + 1 }
    | some _ =>
      match d.tail with
      | some tA =>
          .ok () { heap := heapSetNext h1 tA (some a), head := d.head,
                   tail := some a, fresh := a + 1 }
      | none => .fault { d with heap := h1, fresh := a + 1 }
  else .fault d

/-- Model of `deque_pop_front`: reads `d->head->val` (a fault when `d->head`
is null — the undefined behavior of the C code on an empty deque), then
either clears both ends (`d->head == d->tail`) or advances `d->head` to
`n->next`, and frees the node.  Note the C code never clears the new head
node's `prev` pointer, which now dangles at the freed node. -/
def deque_pop_front (d : Deque) : DRes Int :=
  match d.head with
  | none => .fault d
  | some hA =>
    match heapLookup d.heap hA with
    | none => .fault d
    | some n =>
      if d.head = d.tail then
        .ok n.val { d with heap := heapFree d.heap hA, head := none, tail := none }
      else
        .ok n.val { d with heap := heapFree d.heap hA, head := n.next }

/-- Model of `deque_pop_back`, mirror image of `deque_pop_front`: reads
`d->tail->val`, then clears both ends or moves `d->tail` to `n->prev`, and
frees the node.  The new tail node's `next` pointer is not cleared. -/
def deque_pop_back (d : Deque) : DRes Int :=
  match d.tail with
  | none => .fault d
  | some tA =>
    match heapLookup d.heap tA with
    | none => .fault d
    | some n =>
      if d.head = d.tail then
        .ok n.val { d with heap := heapFree d.heap tA, head := none, tail := none }
      else
        .ok n.val { d with heap := heapFree d.heap tA, tail := n.prev }

/-- Model of `deque_peek_front`: `return d->head->val`, a pure read (a fault
when `d->head` is null). -/
def deque_peek_front (d : Deque) : DRes Int :=
  match d.head with
  | none => .fault d
  | some hA =>
    match heapLookup d.heap hA with
    | none => .fault d
    | some n => .ok n.val d

/-- Model of `deque_peek_back`: `return d->tail->val`. -/
def deque_peek_back (d : Deque) : DRes Int :=
  match d.tail with
  | none => .fault d
  | some tA =>
    match heapLookup d.heap tA with
    | none => .fault d
    | some n => .ok n.val d

/-- The node the head pointer designates, if any. -/
def headNode (d : Deque) : Option Node := d.head.bind (heapLookup d.heap)

/-- The node the tail pointer designates, if any. -/
def tailNode (d : Deque) : Option Node := d.tail.bind (heapLookup d.heap)

/-- The addresses of the currently allocated nodes. -/
def liveAddrs (d : Deque) : List Nat := d.heap.map Prod.fst

/-- The values stored along a list of addresses (`none` marks a dangling
address). -/
def chainVals (h : Heap) (as : List Nat) : List (Option Int) :=
  as.map (fun a => (heapLookup h a).map Node.val)

/-- Adjacency of two addresses in the doubly-linked chain: the node at `a`
has `next = b` and the node at `b` has `prev = a`. -/
def adjacent (h : Heap) (a b : Nat) : Prop :=
  (heapLookup h a).map Node.next = some (some b) ∧
  (heapLookup h b).map Node.prev = some (some a)

instance adjacentDecidable (h : Heap) : DecidableRel (adjacent h) := fun _ _ => by
  unfold adjacent; infer_instance

/-- Whether an optional pointer is null or bounded below the fresh counter. -/
def optLt (o : Option Nat) (f : Nat) : Bool :=
  match o with
  | none => true
  | some b => decide (b < f)

/-- Every address mentioned by a heap binding (its own and its two link
targets) is below the fresh counter. -/
def nodeBounded (p : Nat × Node) (f : Nat) : Prop :=
  p.1 < f ∧ optLt p.2.next f = true ∧ optLt p.2.prev f = true

instance nodeBoundedDecidable (p : Nat × Node) (f : Nat) : Decidable (nodeBounded p f) := by
  unfold nodeBounded; infer_instance

/-- The boundary pointer check: the designated end node's `proj` link (its
`prev` for the head, its `next` for the tail) does not hit any chain
address — it is null or dangles at a freed node. -/
def looseEndB (h : Heap) (x : Option Nat) (proj : Node → Option Nat) (as : List Nat) : Bool :=
  match x with
  | none => true
  | some a =>
    match heapLookup h a with
    | none => true
    | some n =>
      match proj n with
      | none => true
      | some b => !(decide (b ∈ as))

/-- Well-formedness of a deque state with chain addresses `as` holding
values `vs`: the addresses carry the values in order, consecutive addresses
are doubly linked, head and tail are the first and last address, addresses
are distinct, the heap has no duplicate bindings and contains only chain
nodes, every address is below the fresh counter, and the head's `prev` and
the tail's `next` point outside the chain. -/
def WF (d : Deque) (as : List Nat) (vs : List Int) : Prop :=
  chainVals d.heap as = vs.map some ∧
  List.Chain' (adjacent d.heap) as ∧
  d.head = as.head? ∧
  d.tail = as.getLast? ∧
  as.Nodup ∧
  (d.heap.map Prod.fst).Nodup ∧
  (∀ p ∈ d.heap, nodeBounded p d.fresh) ∧
  (∀ p ∈ d.heap, p.1 ∈ as) ∧
  looseEndB d.heap d.head Node.prev as = true ∧
  looseEndB d.heap d.tail Node.next as = true

instance wfDecidable (d : Deque) (as : List Nat) (vs : List Int) : Decidable (WF d as vs) := by
  unfold WF; infer_instance

/-- States reachable from a fresh deque by successful pushes, pops and
peeks (a pop or peek succeeds exactly on a non-empty deque, matching the
claims' side condition that pops are only applied when non-empty). -/
inductive Reachable : Deque → Prop where
  | alloc : Reachable mkDeque
  | push_front (d d' : Deque) (v : Int) (hd : Reachable d)
      (hs : deque_push_front true d v = DRes.ok () d') : Reachable d'
  | push_back (d d' : Deque) (v : Int) (hd : Reachable d)
      (hs : deque_push_back true d v = DRes.ok () d') : Reachable d'
  | pop_front (d d' : Deque) (v : Int) (hd : Reachable d)
      (hs : deque_pop_front d = DRes.ok v d') : Reachable d'
  | pop_back (d d' : Deque) (v : Int) (hd : Reachable d)
      (hs : deque_pop_back d = DRes.ok v d') : Reachable d'
  | peek_front (d d' : Deque) (v : Int) (hd : Reachable d)
      (hs : deque_peek_front d = DRes.ok v d') : Reachable d'
  | peek_back (d d' : Deque) (v : Int) (hd : Reachable d)
      (hs : deque_peek_back d = DRes.ok v d') : Reachable d'

/-- Mirror image of a node: `next` and `prev` swapped. -/
def Node.flip (n : Node) : Node := { next := n.prev, prev := n.next, val := n.val }

/-- Mirror image of a heap: every node flipped in place. -/
def flipHeap (h : Heap) : Heap := h.map (fun p => (p.1, p.2.flip))

/-- Mirror image of a deque: head and tail swapped, every node flipped.
Front operations on the flip are back operations on the original. -/
def Deque.flip (d : Deque) : Deque :=
  { heap := flipHeap d.heap, head := d.tail, tail := d.head, fresh := d.fresh }

/-- Mirror image of an operation result. -/
def DRes.flipD {α : Type} : DRes α → DRes α
  | .ok r d => .ok r d.flip
  | .fault d => .fault d.flip

/-- Popping the front repeatedly (at most `fuel` times, stopping at the
first fault) and collecting the returned values: the observable front-to-back
read-out of the deque. -/
def drainFront : Nat → Deque → List Int
  | 0, _ => []
  | fuel + 1, d =>
    match deque_pop_front d with
    | .ok v d' => v :: drainFront fuel d'
    | .fault _ => []

/-- Popping the back repeatedly and collecting the returned values. -/
def drainBack : Nat → Deque → List Int
  | 0, _ => []
  | fuel + 1, d =>
    match deque_pop_back d with
    | .ok v d' => v :: drainBack fuel d'
    | .fault _ => []

/-- Pushing a list of values one by one at the front (`none` if a push
faults). -/
def pushAllFront : Deque → List Int → Option Deque
  | d, [] => some d
  | d, v :: vs =>
    match deque_push_front true d v with
    | .ok _ d' => pushAllFront d' vs
    | .fault _ => none

/-- Pushing a list of values one by one at the back (`none` if a push
faults). -/
def pushAllBack : Deque → List Int → Option Deque
  | d, [] => some d
  | d, v :: vs =>
    match deque_push_back true d v with
    | .ok _ d' => pushAllBack d' vs
    | .fault _ => none

/-- One deque operation of the interleaved-operation language of the
refinement claim. -/
inductive DequeOp where
  | pushFront (v : Int)
  | pushBack (v : Int)
  | popFront
  | popBack
deriving DecidableEq

/-- Modelled from the spec: one step of the reference double-ended-queue
model, a plain list with insertion and removal at both ends; `none` when a
pop is applied to the empty list (an invalid operation sequence). -/
def absStep : List Int → DequeOp → Option (Option Int × List Int)
  | l, .pushFront v => some (none, v :: l)
  | l, .pushBack v => some (none, l ++ [v])
  | l, .popFront =>
    match l with
    | [] => none
    | v :: t => some (some v, t)
  | l, .popBack =>
    match l.getLast? with
    | none => none
    | some v => some (some v, l.dropLast)

/-- Modelled from the spec: running the reference model over an operation
sequence, collecting the value returned by each step (`none` for a push). -/
def absRun : List Int → List DequeOp → Option (List (Option Int) × List Int)
  | l, [] => some ([], l)
  | l, op :: ops =>
    match absStep l op with
    | none => none
    | some (r, l') =>
      match absRun l' ops with
      | none => none
      | some (tr, fin) => some (r :: tr, fin)

/-- One step of the C implementation under the operation language (`none`
when the step faults). -/
def concStep : Deque → DequeOp → Option (Option Int × Deque)
  | d, .pushFront v =>
    match deque_push_front true d v with
    | .ok _ d' => some (none, d')
    | .fault _ => none
  | d, .pushBack v =>
    match deque_push_back true d v with
    | .ok _ d' => some (none, d')
    | .fault _ => none
  | d, .popFront =>
    match deque_pop_front d with
    | .ok v d' => some (some v, d')
    | .fault _ => none
  | d, .popBack =>
    match deque_pop_back d with
    | .ok v d' => some (some v, d')
    | .fault _ => none

/-- Running the C implementation over an operation sequence, collecting the
value returned by each step. -/
def concRun : Deque → List DequeOp → Option (List (Option Int) × Deque)
  | d, [] => some ([], d)
  | d, op :: ops =>
    match concStep d op with
    | none => none
    | some (r, d') =>
      match concRun d' ops with
      | none => none
      | some (tr, fin) => some (r :: tr, fin)

/-- The deque after `push_back 1; push_back 2` on a fresh deque. -/
def c4d2 : Deque := resState (deque_push_back true (resState (deque_push_back true mkDeque 1)) 2)

/-- The deque of the concrete scenario after additionally `push_front 0`. -/
def c4d3 : Deque := resState (deque_push_front true c4d2 0)

/-- The scenario deque after `pop_front`. -/
def c4d4 : Deque := resState (deque_pop_front c4d3)

/-- The scenario deque after `pop_back`. -/
def c4d5 : Deque := resState (deque_pop_back c4d4)

/-- The scenario deque after the final `pop_front`. -/
def c4d6 : Deque := resState (deque_pop_front c4d5)

/-- The state `push_back 1; push_back 2; pop_front` of a fresh deque: the
head node's `prev` pointer dangles at the freed first node. -/
def c3state : Deque := resState (deque_pop_front c4d2)

/-- A reachable one-element deque used to instantiate peek claims. -/
def oneDeque : Deque := resState (deque_push_back true mkDeque 7)

theorem heapLookup_cons (k : Nat) (n : Node) (t : Heap) (b : Nat) :
    heapLookup ((k, n) :: t) b = if b = k then some n else heapLookup t b := rfl

theorem heapFree_cons (k : Nat) (n : Node) (t : Heap) (a : Nat) :
    heapFree ((k, n) :: t) a =
      if k = a then heapFree t a else (k, n) :: heapFree t a := rfl

theorem heapSetPrev_cons (k : Nat) (n : Node) (t : Heap) (a : Nat) (p : Option Nat) :
    heapSetPrev ((k, n) :: t) a p =
      if k = a then (k, { n with prev := p }) :: heapSetPrev t a p
      else (k, n) :: heapSetPrev t a p := rfl

theorem heapSetNext_cons (k : Nat) (n : Node) (t : Heap) (a : Nat) (q : Option Nat) :
    heapSetNext ((k, n) :: t) a q =
      if k = a then (k, { n with next := q }) :: heapSetNext t a q
      else (k, n) :: heapSetNext t a q := rfl

theorem heapLookup_free (h : Heap) (a b : Nat) :
    heapLookup (heapFree h a) b = if b = a then none else heapLookup h b := by
  induction h with
  | nil => by_cases hb : b = a <;> simp [heapFree, heapLookup, hb]
  | cons w t ih =>
    obtain ⟨k, n⟩ := w
    by_cases hk : k = a <;> by_cases hb : b = k <;>
      simp_all [heapFree, heapLookup]

theorem heapLookup_setPrev (h : Heap) (c : Nat) (p : Option Nat) (b : Nat) :
    heapLookup (heapSetPrev h c p) b =
      if b = c then (heapLookup h b).map (fun n => { n with prev := p })
      else heapLookup h b := by
  induction h with
  | nil => by_cases hb : b = c <;> simp [heapSetPrev, heapLookup, hb]
  | cons w t ih =>
    obtain ⟨k, n⟩ := w
    rw [heapSetPrev_cons]
    by_cases hk : k = c
    · subst hk
      rw [if_pos rfl]
      by_cases hb : b = k
      · subst hb
        simp [heapLookup_cons]
      · simp [heapLookup_cons, hb, ih]
    · rw [if_neg hk]
      by_cases hb : b = k
      · subst hb
        simp [heapLookup_cons, hk]
      · simp [heapLookup_cons, hb, ih]

theorem heapLookup_setNext (h : Heap) (c : Nat) (q : Option Nat) (b : Nat) :
    heapLookup (heapSetNext h c q) b =
      if b = c then (heapLookup h b).map (fun n => { n with next := q })
      else heapLookup h b := by
  induction h with
  | nil => by_cases hb : b = c <;> simp [heapSetNext, heapLookup, hb]
  | cons w t ih =>
    obtain ⟨k, n⟩ := w
    rw [heapSetNext_cons]
    by_cases hk : k = c
    · subst hk
      rw [if_pos rfl]
      by_cases hb : b = k
      · subst hb
        simp [heapLookup_cons]
      · simp [heapLookup_cons, hb, ih]
    · rw [if_neg hk]
      by_cases hb : b = k
      · subst hb
        simp [heapLookup_cons, hk]
      · simp [heapLookup_cons, hb, ih]

theorem heapLookup_mem {h : Heap} {k : Nat} {n : Node}
    (hl : heapLookup h k = some n) : (k, n) ∈ h := by
  induction h with
  | nil => simp [heapLookup] at hl
  | cons w t ih =>
    obtain ⟨b, m⟩ := w
    rw [heapLookup_cons] at hl
    by_cases hb : k = b
    · rw [if_pos hb] at hl
      injection hl with h2
      subst h2
      subst hb
      exact List.mem_cons_self _ _
    · rw [if_neg hb] at hl
      exact List.mem_cons_of_mem _ (ih hl)

theorem heapLookup_mem_keys {h : Heap} {k : Nat} {n : Node}
    (hl : heapLookup h k = some n) : k ∈ h.map Prod.fst :=
  List.mem_map.mpr ⟨(k, n), heapLookup_mem hl, rfl⟩

theorem heapLookup_eq_none {h : Heap} {k : Nat} (hk : k ∉ h.map Prod.fst) :
    heapLookup h k = none := by
  induction h with
  | nil => rfl
  | cons w t ih =>
    obtain ⟨b, m⟩ := w
    simp only [List.map_cons, List.mem_cons] at hk
    push_neg at hk
    simp [heapLookup, hk.1, ih hk.2]

theorem mem_heapFree {h : Heap} {a : Nat} {q : Nat × Node}
    (hq : q ∈ heapFree h a) : q ∈ h ∧ q.1 ≠ a := by
  induction h with
  | nil => simp [heapFree] at hq
  | cons w t ih =>
    obtain ⟨k, n⟩ := w
    by_cases hk : k = a
    · rw [heapFree, if_pos hk] at hq
      exact ⟨List.mem_cons_of_mem _ (ih hq).1, (ih hq).2⟩
    · rw [heapFree, if_neg hk] at hq
      rcases List.mem_cons.mp hq with h1 | h2
      · subst h1
        exact ⟨List.mem_cons_self _ _, hk⟩
      · exact ⟨List.mem_cons_of_mem _ (ih h2).1, (ih h2).2⟩

theorem heapFree_sublist (h : Heap) (a : Nat) : List.Sublist (heapFree h a) h := by
  induction h with
  | nil => simp [heapFree]
  | cons w t ih =>
    obtain ⟨k, n⟩ := w
    rw [heapFree_cons]
    by_cases hk : k = a
    · rw [if_pos hk]
      exact ih.trans (List.sublist_cons_self _ _)
    · rw [if_neg hk]
      exact ih.cons₂ _

theorem mem_heapSetPrev {h : Heap} {c : Nat} {p : Option Nat} {q : Nat × Node}
    (hq : q ∈ heapSetPrev h c p) :
    ∃ r ∈ h, q.1 = r.1 ∧ q.2.next = r.2.next ∧ q.2.val = r.2.val ∧
      (q.2.prev = r.2.prev ∨ q.2.prev = p) := by
  induction h with
  | nil => simp [heapSetPrev] at hq
  | cons w t ih =>
    obtain ⟨k, n⟩ := w
    by_cases hk : k = c
    · rw [heapSetPrev, if_pos hk] at hq
      rcases List.mem_cons.mp hq with h1 | h2
      · subst h1
        exact ⟨(k, n), List.mem_cons_self _ _, rfl, rfl, rfl, Or.inr rfl⟩
      · obtain ⟨r, hr, hrest⟩ := ih h2
        exact ⟨r, List.mem_cons_of_mem _ hr, hrest⟩
    · rw [heapSetPrev, if_neg hk] at hq
      rcases List.mem_cons.mp hq with h1 | h2
      · subst h1
        exact ⟨(k, n), List.mem_cons_self _ _, rfl, rfl, rfl, Or.inl rfl⟩
      · obtain ⟨r, hr, hrest⟩ := ih h2
        exact ⟨r, List.mem_cons_of_mem _ hr, hrest⟩

theorem mem_heapSetNext {h : Heap} {c : Nat} {p : Option Nat} {q : Nat × Node}
    (hq : q ∈ heapSetNext h c p) :
    ∃ r ∈ h, q.1 = r.1 ∧ q.2.prev = r.2.prev ∧ q.2.val = r.2.val ∧
      (q.2.next = r.2.next ∨ q.2.next = p) := by
  induction h with
  | nil => simp [heapSetNext] at hq
  | cons w t ih =>
    obtain ⟨k, n⟩ := w
    by_cases hk : k = c
    · rw [heapSetNext, if_pos hk] at hq
      rcases List.mem_cons.mp hq with h1 | h2
      · subst h1
        exact ⟨(k, n), List.mem_cons_self _ _, rfl, rfl, rfl, Or.inr rfl⟩
      · obtain ⟨r, hr, hrest⟩ := ih h2
        exact ⟨r, List.mem_cons_of_mem _ hr, hrest⟩
    · rw [heapSetNext, if_neg hk] at hq
      rcases List.mem_cons.mp hq with h1 | h2
      · subst h1
        exact ⟨(k, n), List.mem_cons_self _ _, rfl, rfl, rfl, Or.inl rfl⟩
      · obtain ⟨r, hr, hrest⟩ := ih h2
        exact ⟨r, List.mem_cons_of_mem _ hr, hrest⟩

theorem keys_heapSetPrev (h : Heap) (c : Nat) (p : Option Nat) :
    (heapSetPrev h c p).map Prod.fst = h.map Prod.fst := by
  induction h with
  | nil => rfl
  | cons w t ih =>
    obtain ⟨k, n⟩ := w
    by_cases hk : k = c <;> simp [heapSetPrev, hk, ih]

theorem keys_heapSetNext (h : Heap) (c : Nat) (p : Option Nat) :
    (heapSetNext h c p).map Prod.fst = h.map Prod.fst := by
  induction h with
  | nil => rfl
  | cons w t ih =>
    obtain ⟨k, n⟩ := w
    by_cases hk : k = c <;> simp [heapSetNext, hk, ih]

theorem flipHeap_nil : flipHeap [] = [] := rfl

theorem flipHeap_cons (b : Nat) (m : Node) (t : Heap) :
    flipHeap ((b, m) :: t) = (b, m.flip) :: flipHeap t := rfl

theorem nodeFlip_flip (n : Node) : n.flip.flip = n := rfl

theorem flipHeap_flipHeap (h : Heap) : flipHeap (flipHeap h) = h := by
  induction h with
  | nil => rfl
  | cons w t ih =>
    obtain ⟨b, m⟩ := w
    show (b, m.flip.flip) :: flipHeap (flipHeap t) = (b, m) :: t
    rw [nodeFlip_flip, ih]

theorem dequeFlip_flip (d : Deque) : d.flip.flip = d := by
  cases d with
  | mk h hd tl f => simp [Deque.flip, flipHeap_flipHeap]

theorem heapLookup_flip (h : Heap) (a : Nat) :
    heapLookup (flipHeap h) a = (heapLookup h a).map Node.flip := by
  induction h with
  | nil => rfl
  | cons w t ih =>
    obtain ⟨b, m⟩ := w
    rw [flipHeap_cons, heapLookup_cons, heapLookup_cons]
    by_cases hb : a = b
    · rw [if_pos hb, if_pos hb]
      rfl
    · rw [if_neg hb, if_neg hb, ih]

theorem heapFree_flip (h : Heap) (a : Nat) :
    heapFree (flipHeap h) a = flipHeap (heapFree h a) := by
  induction h with
  | nil => rfl
  | cons w t ih =>
    obtain ⟨b, m⟩ := w
    rw [flipHeap_cons, heapFree_cons, heapFree_cons]
    by_cases hb : b = a
    · rw [if_pos hb, if_pos hb, ih]
    · rw [if_neg hb, if_neg hb, flipHeap_cons, ih]

theorem heapSetPrev_flip (h : Heap) (a : Nat) (p : Option Nat) :
    heapSetPrev (flipHeap h) a p = flipHeap (heapSetNext h a p) := by
  induction h with
  | nil => rfl
  | cons w t ih =>
    obtain ⟨b, m⟩ := w
    rw [flipHeap_cons, heapSetPrev_cons, heapSetNext_cons]
    by_cases hb : b = a
    · rw [if_pos hb, if_pos hb, flipHeap_cons, ih]
      rfl
    · rw [if_neg hb, if_neg hb, flipHeap_cons, ih]

theorem heapSetNext_flip (h : Heap) (a : Nat) (p : Option Nat) :
    heapSetNext (flipHeap h) a p = flipHeap (heapSetPrev h a p) := by
  induction h with
  | nil => rfl
  | cons w t ih =>
    obtain ⟨b, m⟩ := w
    rw [flipHeap_cons, heapSetNext_cons, heapSetPrev_cons]
    by_cases hb : b = a
    · rw [if_pos hb, if_pos hb, flipHeap_cons, ih]
      rfl
    · rw [if_neg hb, if_neg hb, flipHeap_cons, ih]

theorem keys_flipHeap (h : Heap) : (flipHeap h).map Prod.fst = h.map Prod.fst := by
  induction h with
  | nil => rfl
  | cons w t ih =>
    obtain ⟨b, m⟩ := w
    simp [flipHeap_cons, ih]

theorem heapSetPrev_cons_flip (h : Heap) (a c : Nat) (m : Node) (p : Option Nat) :
    flipHeap (heapSetPrev ((a, m) :: flipHeap h) c p) = heapSetNext ((a, m.flip) :: h) c p := by
  have h1 : ((a, m) :: flipHeap h) = flipHeap ((a, m.flip) :: h) := by
    rw [flipHeap_cons, nodeFlip_flip]
  rw [h1, heapSetPrev_flip, flipHeap_flipHeap]

theorem heapSetNext_cons_flip (h : Heap) (a c : Nat) (m : Node) (p : Option Nat) :
    flipHeap (heapSetNext ((a, m) :: flipHeap h) c p) = heapSetPrev ((a, m.flip) :: h) c p := by
  have h1 : ((a, m) :: flipHeap h) = flipHeap ((a, m.flip) :: h) := by
    rw [flipHeap_cons, nodeFlip_flip]
  rw [h1, heapSetNext_flip, flipHeap_flipHeap]

theorem flipHeap_free_flip (h : Heap) (a : Nat) :
    flipHeap (heapFree (flipHeap h) a) = heapFree h a := by
  rw [heapFree_flip, flipHeap_flipHeap]

theorem flipHeap_cons_flip (h : Heap) (a : Nat) (m : Node) :
    flipHeap ((a, m) :: flipHeap h) = (a, m.flip) :: h := by
  rw [flipHeap_cons, flipHeap_flipHeap]

theorem flip_head (d : Deque) : d.flip.head = d.tail := rfl

theorem flip_tail (d : Deque) : d.flip.tail = d.head := rfl

theorem flip_heapEq (d : Deque) : d.flip.heap = flipHeap d.heap := rfl

theorem flip_fresh (d : Deque) : d.flip.fresh = d.fresh := rfl

theorem deque_push_back_flip (ok : Bool) (d : Deque) (v : Int) :
    deque_push_back ok d v = DRes.flipD (deque_push_front ok d.flip v) := by
  cases ok with
  | false => simp [deque_push_back, deque_push_front, DRes.flipD, dequeFlip_flip]
  | true =>
    rcases hh : d.head with _ | hA <;> rcases ht : d.tail with _ | tA <;>
      simp [deque_push_back, deque_push_front, Deque.flip, DRes.flipD, hh, ht,
        flipHeap_cons_flip, heapSetPrev_cons_flip, Node.flip]

theorem deque_pop_back_flip (d : Deque) :
    deque_pop_back d = DRes.flipD (deque_pop_front d.flip) := by
  cases d with
  | mk hp hd tl f =>
    rcases tl with _ | tA
    · simp [deque_pop_back, deque_pop_front, Deque.flip, DRes.flipD, flipHeap_flipHeap]
    · rcases hl : heapLookup hp tA with _ | n
      · simp [deque_pop_back, deque_pop_front, Deque.flip, DRes.flipD, hl,
          heapLookup_flip, flipHeap_flipHeap]
      · by_cases he : hd = some tA
        · simp [deque_pop_back, deque_pop_front, Deque.flip, DRes.flipD, hl,
            heapLookup_flip, flipHeap_free_flip, Node.flip, he]
        · have he2 : ¬ some tA = hd := fun hx => he hx.symm
          simp [deque_pop_back, deque_pop_front, Deque.flip, DRes.flipD, hl,
            heapLookup_flip, flipHeap_free_flip, Node.flip, he, he2]

theorem deque_peek_back_flip (d : Deque) :
    deque_peek_back d = DRes.flipD (deque_peek_front d.flip) := by
  cases d with
  | mk hp hd tl f =>
    rcases tl with _ | tA
    · simp [deque_peek_back, deque_peek_front, Deque.flip, DRes.flipD, flipHeap_flipHeap]
    · rcases hl : heapLookup hp tA with _ | n <;>
        simp [deque_peek_back, deque_peek_front, Deque.flip, DRes.flipD, hl,
          heapLookup_flip, flipHeap_flipHeap, Node.flip]

theorem chain'_of_pairs {R S : Nat → Nat → Prop} :
    ∀ {l : List Nat}, List.Chain' R l →
      (∀ x y, (x, y) ∈ l.zip l.tail → R x y → S x y) → List.Chain' S l := by
  intro l
  induction l with
  | nil => intro _ _; exact List.chain'_nil
  | cons a t ih =>
    intro hc hp
    cases t with
    | nil => exact List.chain'_singleton a
    | cons b t2 =>
      rw [List.chain'_cons] at hc ⊢
      refine ⟨hp a b (List.mem_cons_self _ _) hc.1, ?_⟩
      exact ih hc.2 (fun x y hxy hr => hp x y (List.mem_cons_of_mem _ hxy) hr)

theorem looseEndB_iff (h : Heap) (x : Option Nat) (proj : Node → Option Nat) (as : List Nat) :
    looseEndB h x proj as = true ↔
      ∀ a, x = some a → ∀ n, heapLookup h a = some n → ∀ b, proj n = some b → b ∉ as := by
  cases x with
  | none => simp [looseEndB]
  | some a =>
    rcases hl : heapLookup h a with _ | n
    · simp [looseEndB, hl]
    · rcases hp : proj n with _ | b
      · simp [looseEndB, hl, hp]
      · simp [looseEndB, hl, hp]

theorem chainVals_nil (h : Heap) : chainVals h [] = [] := rfl

theorem chainVals_cons (h : Heap) (a : Nat) (t : List Nat) :
    chainVals h (a :: t) = ((heapLookup h a).map Node.val) :: chainVals h t := rfl

theorem chainVals_congr_val {h g : Heap} {as : List Nat}
    (hagree : ∀ a ∈ as, (heapLookup g a).map Node.val = (heapLookup h a).map Node.val) :
    chainVals g as = chainVals h as := by
  induction as with
  | nil => rfl
  | cons a t ih =>
    rw [chainVals_cons, chainVals_cons, hagree a (List.mem_cons_self _ _),
      ih (fun x hx => hagree x (List.mem_cons_of_mem _ hx))]

theorem chainVals_flip (h : Heap) (as : List Nat) :
    chainVals (flipHeap h) as = chainVals h as := by
  induction as with
  | nil => rfl
  | cons a t ih =>
    rw [chainVals_cons, chainVals_cons, ih, heapLookup_flip]
    cases heapLookup h a <;> rfl

theorem chainVals_reverse (h : Heap) (as : List Nat) :
    chainVals h as.reverse = (chainVals h as).reverse := by
  simp [chainVals, List.map_reverse]

theorem chainVals_length (h : Heap) (as : List Nat) :
    (chainVals h as).length = as.length := by
  simp [chainVals]

theorem adjacent_flip (h : Heap) (a b : Nat) :
    adjacent (flipHeap h) a b ↔ adjacent h b a := by
  unfold adjacent
  rw [heapLookup_flip, heapLookup_flip]
  cases heapLookup h a <;> cases heapLookup h b <;>
    simp [Node.flip, and_comm]

theorem optLt_mono {o : Option Nat} {f g : Nat} (h : optLt o f = true) (hfg : f ≤ g) :
    optLt o g = true := by
  cases o with
  | none => rfl
  | some b =>
    unfold optLt at h ⊢
    simp only [decide_eq_true_eq] at h ⊢
    omega

theorem optLt_lt {b : Nat} {f : Nat} (h : optLt (some b) f = true) : b < f := by
  unfold optLt at h
  simpa using h

theorem nodeBounded_mono {p : Nat × Node} {f g : Nat} (hb : nodeBounded p f) (hfg : f ≤ g) :
    nodeBounded p g :=
  ⟨lt_of_lt_of_le hb.1 hfg, optLt_mono hb.2.1 hfg, optLt_mono hb.2.2 hfg⟩

theorem fresh_not_mem_keys {h : Heap} {f : Nat} (hbnd : ∀ p ∈ h, nodeBounded p f) :
    f ∉ h.map Prod.fst := by
  intro hmem
  obtain ⟨p, hp, hfst⟩ := List.mem_map.mp hmem
  have h1 := (hbnd p hp).1
  omega

theorem mem_keys_lt {h : Heap} {f k : Nat} (hbnd : ∀ p ∈ h, nodeBounded p f)
    (hk : k ∈ h.map Prod.fst) : k < f := by
  obtain ⟨p, hp, hfst⟩ := List.mem_map.mp hk
  have h1 := (hbnd p hp).1
  omega

theorem chain_lookup_some {h : Heap} {as : List Nat} {vs : List Int}
    (hv : chainVals h as = vs.map some) : ∀ a ∈ as, ∃ n, heapLookup h a = some n := by
  induction as generalizing vs with
  | nil => intro a ha; exact absurd ha (List.not_mem_nil _)
  | cons a0 t ih =>
    intro a ha
    cases vs with
    | nil => simp [chainVals_cons] at hv
    | cons w ws =>
      rw [chainVals_cons, List.map_cons] at hv
      injection hv with h1 h2
      rcases List.mem_cons.mp ha with rfl | hmem
      · rcases hl : heapLookup h a with _ | n
        · rw [hl] at h1; simp at h1
        · exact ⟨n, rfl⟩
      · exact ih h2 a hmem

theorem mem_of_getLast?_eq {l : List Nat} {a : Nat} (h : l.getLast? = some a) : a ∈ l := by
  induction l with
  | nil => simp at h
  | cons b t ih =>
    cases t with
    | nil =>
      simp at h
      subst h
      exact List.mem_cons_self _ _
    | cons c t2 =>
      rw [List.getLast?_cons_cons] at h
      exact List.mem_cons_of_mem _ (ih h)

theorem bounded_heapSetPrev {h : Heap} {c : Nat} {pv : Option Nat} {f g : Nat}
    (hb : ∀ p ∈ h, nodeBounded p f) (hpv : optLt pv g = true) (hfg : f ≤ g) :
    ∀ p ∈ heapSetPrev h c pv, nodeBounded p g := by
  intro p hp
  obtain ⟨r, hr, h1, h2, h3, h4⟩ := mem_heapSetPrev hp
  obtain ⟨hb1, hb2, hb3⟩ := hb r hr
  refine ⟨?_, ?_, ?_⟩
  · rw [h1]; exact lt_of_lt_of_le hb1 hfg
  · rw [h2]; exact optLt_mono hb2 hfg
  · rcases h4 with h4 | h4
    · rw [h4]; exact optLt_mono hb3 hfg
    · rw [h4]; exact hpv

theorem bounded_heapSetNext {h : Heap} {c : Nat} {pv : Option Nat} {f g : Nat}
    (hb : ∀ p ∈ h, nodeBounded p f) (hpv : optLt pv g = true) (hfg : f ≤ g) :
    ∀ p ∈ heapSetNext h c pv, nodeBounded p g := by
  intro p hp
  obtain ⟨r, hr, h1, h2, h3, h4⟩ := mem_heapSetNext hp
  obtain ⟨hb1, hb2, hb3⟩ := hb r hr
  refine ⟨?_, ?_, ?_⟩
  · rw [h1]; exact lt_of_lt_of_le hb1 hfg
  · rcases h4 with h4 | h4
    · rw [h4]; exact optLt_mono hb2 hfg
    · rw [h4]; exact hpv
  · rw [h2]; exact optLt_mono hb3 hfg

theorem WF_flip {d : Deque} {as : List Nat} {vs : List Int} (h : WF d as vs) :
    WF d.flip as.reverse vs.reverse := by
  obtain ⟨hv, hc, hh, ht, hnd, hknd, hbnd, hksub, hlp, hln⟩ := h
  refine ⟨?_, ?_, ?_, ?_, ?_, ?_, ?_, ?_, ?_, ?_⟩
  · show chainVals (flipHeap d.heap) as.reverse = vs.reverse.map some
    rw [chainVals_flip, chainVals_reverse, hv, List.map_reverse]
  · show List.Chain' (adjacent (flipHeap d.heap)) as.reverse
    rw [List.chain'_reverse]
    exact hc.imp (fun a b hab => (adjacent_flip d.heap b a).mpr hab)
  · show d.tail = as.reverse.head?
    rw [List.head?_reverse]
    exact ht
  · show d.head = as.reverse.getLast?
    rw [List.getLast?_reverse]
    exact hh
  · exact List.nodup_reverse.mpr hnd
  · show ((flipHeap d.heap).map Prod.fst).Nodup
    rw [keys_flipHeap]
    exact hknd
  · intro p hp
    obtain ⟨q, hq, hpq⟩ := List.mem_map.mp hp
    obtain ⟨hb1, hb2, hb3⟩ := hbnd q hq
    subst hpq
    exact ⟨hb1, hb3, hb2⟩
  · intro p hp
    obtain ⟨q, hq, hpq⟩ := List.mem_map.mp hp
    subst hpq
    exact List.mem_reverse.mpr (hksub q hq)
  · show looseEndB (flipHeap d.heap) d.tail Node.prev as.reverse = true
    rw [looseEndB_iff]
    intro a ha n hn b hb
    rw [heapLookup_flip] at hn
    rcases hm : heapLookup d.heap a with _ | m
    · rw [hm] at hn; simp at hn
    · rw [hm] at hn
      injection hn with hn
      have hnext : m.next = some b := by
        rw [← hb, ← hn]
        rfl
      have := (looseEndB_iff d.heap d.tail Node.next as).mp hln a ha m hm b hnext
      exact fun hmem => this (List.mem_reverse.mp hmem)
  · show looseEndB (flipHeap d.heap) d.head Node.next as.reverse = true
    rw [looseEndB_iff]
    intro a ha n hn b hb
    rw [heapLookup_flip] at hn
    rcases hm : heapLookup d.heap a with _ | m
    · rw [hm] at hn; simp at hn
    · rw [hm] at hn
      injection hn with hn
      have hprev : m.prev = some b := by
        rw [← hb, ← hn]
        rfl
      have := (looseEndB_iff d.heap d.head Node.prev as).mp hlp a ha m hm b hprev
      exact fun hmem => this (List.mem_reverse.mp hmem)

theorem push_front_spec {d : Deque} {as : List Nat} {vs : List Int} (v : Int)
    (h : WF d as vs) :
    ∃ d', deque_push_front true d v = DRes.ok () d' ∧ WF d' (d.fresh :: as) (v :: vs) := by
  unfold WF at h
  obtain ⟨hv, hc, hh, ht, hnd, hknd, hbnd, hksub, hlp, hln⟩ := h
  cases as with
  | nil =>
    have hvs : vs = [] := by
      cases vs with
      | nil => rfl
      | cons w ws => rw [chainVals_nil] at hv; simp at hv
    subst hvs
    have hh0 : d.head = none := hh
    have ht0 : d.tail = none := ht
    refine ⟨{ heap := (d.fresh, { next := d.head, prev := none, val := v }) :: d.heap,
              head := some d.fresh, tail := some d.fresh, fresh := d.fresh + 1 }, ?_, ?_⟩
    · simp [deque_push_front, ht0]
    · unfold WF
      refine ⟨?_, ?_, rfl, ?_, ?_, ?_, ?_, ?_, ?_, ?_⟩
      · simp [chainVals_cons, chainVals_nil, heapLookup_cons]
      · exact List.chain'_singleton _
      · simp
      · simp
      · simp only [List.map_cons]
        exact List.nodup_cons.mpr ⟨fresh_not_mem_keys hbnd, hknd⟩
      · intro p hp
        rcases List.mem_cons.mp hp with rfl | hp2
        · refine ⟨Nat.lt_succ_self _, ?_, rfl⟩
          show optLt d.head (d.fresh + 1) = true
          rw [hh0]
          rfl
        · exact nodeBounded_mono (hbnd p hp2) (Nat.le_succ _)
      · intro p hp
        rcases List.mem_cons.mp hp with rfl | hp2
        · simp
        · exact absurd (hksub p hp2) (List.not_mem_nil _)
      · simp [looseEndB, heapLookup_cons]
      · simp [looseEndB, heapLookup_cons, hh0]
  | cons a0 rest =>
    have hh0 : d.head = some a0 := hh
    obtain ⟨tL, htL⟩ : ∃ tL, (a0 :: rest).getLast? = some tL := by
      cases hgl : (a0 :: rest).getLast? with
      | none => rw [List.getLast?_eq_none_iff] at hgl; exact absurd hgl (by simp)
      | some x => exact ⟨x, rfl⟩
    have ht0 : d.tail = some tL := by rw [ht, htL]
    cases vs with
    | nil => rw [chainVals_cons] at hv; simp at hv
    | cons v0 vs' =>
    have hlooks := chain_lookup_some hv
    rw [chainVals_cons, List.map_cons] at hv
    injection hv with hv0 hvrest
    obtain ⟨n0, hn0⟩ : ∃ n0, heapLookup d.heap a0 = some n0 := by
      rcases hl : heapLookup d.heap a0 with _ | n0
      · rw [hl] at hv0; simp at hv0
      · exact ⟨n0, rfl⟩
    have hn0v : n0.val = v0 := by
      rw [hn0] at hv0
      injection hv0
    have hAnot : d.fresh ∉ d.heap.map Prod.fst := fresh_not_mem_keys hbnd
    have hmemkeys : ∀ x ∈ a0 :: rest, x ∈ d.heap.map Prod.fst := fun x hx =>
      (hlooks x hx).elim (fun n hn => heapLookup_mem_keys hn)
    have hne : ∀ x ∈ a0 :: rest, x ≠ d.fresh := fun x hx heq =>
      hAnot (heq ▸ hmemkeys x hx)
    have hlt : ∀ x ∈ a0 :: rest, x < d.fresh := fun x hx =>
      mem_keys_lt hbnd (hmemkeys x hx)
    have ha0A : a0 ≠ d.fresh := hne a0 (List.mem_cons_self _ _)
    have hlookA :
        heapLookup (heapSetPrev ((d.fresh, { next := d.head, prev := none, val := v })
            :: d.heap) a0 (some d.fresh)) d.fresh
          = some { next := d.head, prev := none, val := v } := by
      rw [heapLookup_setPrev, if_neg (fun hx => ha0A hx.symm), heapLookup_cons, if_pos rfl]
    have hlooka0 :
        heapLookup (heapSetPrev ((d.fresh, { next := d.head, prev := none, val := v })
            :: d.heap) a0 (some d.fresh)) a0
          = some { n0 with prev := some d.fresh } := by
      rw [heapLookup_setPrev, if_pos rfl, heapLookup_cons, if_neg ha0A, hn0]
      rfl
    have hlookRest : ∀ x ∈ rest,
        heapLookup (heapSetPrev ((d.fresh, { next := d.head, prev := none, val := v })
            :: d.heap) a0 (some d.fresh)) x
          = heapLookup d.heap x := by
      intro x hx
      have hxa0 : ¬ x = a0 := by
        intro he
        exact (List.nodup_cons.mp hnd).1 (he ▸ hx)
      have hxA : ¬ x = d.fresh := hne x (List.mem_cons_of_mem _ hx)
      rw [heapLookup_setPrev, if_neg hxa0, heapLookup_cons, if_neg hxA]
    have hvalpres : ∀ x ∈ a0 :: rest,
        (heapLookup (heapSetPrev ((d.fresh, { next := d.head, prev := none, val := v })
            :: d.heap) a0 (some d.fresh)) x).map Node.val
          = (heapLookup d.heap x).map Node.val := by
      intro x hx
      rcases List.mem_cons.mp hx with rfl | hx2
      · rw [hlooka0, hn0]
        rfl
      · rw [hlookRest x hx2]
    have hnextpres : ∀ x ∈ a0 :: rest,
        (heapLookup (heapSetPrev ((d.fresh, { next := d.head, prev := none, val := v })
            :: d.heap) a0 (some d.fresh)) x).map Node.next
          = (heapLookup d.heap x).map Node.next := by
      intro x hx
      rcases List.mem_cons.mp hx with rfl | hx2
      · rw [hlooka0, hn0]
        rfl
      · rw [hlookRest x hx2]
    refine ⟨{ heap := heapSetPrev ((d.fresh, { next := d.head, prev := none, val := v })
                :: d.heap) a0 (some d.fresh),
              head := some d.fresh, tail := d.tail, fresh := d.fresh + 1 }, ?_, ?_⟩
    · simp [deque_push_front, ht0, hh0]
    · unfold WF
      refine ⟨?_, ?_, rfl, ?_, ?_, ?_, ?_, ?_, ?_, ?_⟩
      · rw [chainVals_cons, hlookA, chainVals_congr_val hvalpres, chainVals_cons,
          List.map_cons, List.map_cons, hv0, hvrest]
        rfl
      · rw [List.chain'_cons]
        constructor
        · constructor
          · rw [hlookA]
            show some d.head = some (some a0)
            rw [hh0]
          · rw [hlooka0]
            rfl
        · refine chain'_of_pairs hc ?_
          intro x y hxy hr
          obtain ⟨hx, hy⟩ := List.of_mem_zip hxy
          obtain ⟨hr1, hr2⟩ := hr
          constructor
          · rw [hnextpres x hx]
            exact hr1
          · rw [hlookRest y hy]
            exact hr2
      · show d.tail = (d.fresh :: a0 :: rest).getLast?
        rw [List.getLast?_cons_cons]
        exact ht
      · exact List.nodup_cons.mpr ⟨fun hx => hne _ hx rfl, hnd⟩
      · show ((heapSetPrev _ _ _).map Prod.fst).Nodup
        rw [keys_heapSetPrev, List.map_cons]
        exact List.nodup_cons.mpr ⟨hAnot, hknd⟩
      · refine bounded_heapSetPrev ?_ ?_ (le_refl _)
        · intro p hp
          rcases List.mem_cons.mp hp with rfl | hp2
          · refine ⟨Nat.lt_succ_self _, ?_, rfl⟩
            show optLt d.head (d.fresh + 1) = true
            rw [hh0]
            unfold optLt
            simp only [decide_eq_true_eq]
            have := hlt a0 (List.mem_cons_self _ _)
            omega
          · exact nodeBounded_mono (hbnd p hp2) (Nat.le_succ _)
        · unfold optLt
          simp
      · intro p hp
        obtain ⟨r, hr, h1, _, _, _⟩ := mem_heapSetPrev hp
        rcases List.mem_cons.mp hr with rfl | hr2
        · rw [h1]
          exact List.mem_cons_self _ _
        · rw [h1]
          exact List.mem_cons_of_mem _ (hksub r hr2)
      · rw [looseEndB_iff]
        intro a ha n hn b hb
        injection ha with ha
        subst ha
        rw [hlookA] at hn
        injection hn with hn
        subst hn
        exact absurd hb (by simp)
      · show looseEndB
            (heapSetPrev ((d.fresh, { next := d.head, prev := none, val := v }) :: d.heap)
              a0 (some d.fresh))
            d.tail Node.next (d.fresh :: a0 :: rest) = true
        rw [looseEndB_iff]
        intro aT haT n hn b hb
        rw [ht0] at haT
        injection haT with haT
        subst haT
        have htLmem : tL ∈ a0 :: rest := mem_of_getLast?_eq htL
        obtain ⟨m, hm⟩ := hlooks tL htLmem
        have hmn : m.next = some b := by
          have hpres := hnextpres tL htLmem
          rw [hn, hm] at hpres
          injection hpres with hpres
          rw [← hpres]
          exact hb
        have hold := (looseEndB_iff d.heap d.tail Node.next (a0 :: rest)).mp hln
          tL ht0 m hm b hmn
        have hblt : b < d.fresh := by
          have hbd := (hbnd (tL, m) (heapLookup_mem hm)).2.1
          rw [hmn] at hbd
          exact optLt_lt hbd
        intro hmem
        rcases List.mem_cons.mp hmem with rfl | hmem2
        · omega
        · exact hold hmem2

theorem pop_front_empty {d : Deque} (h : WF d [] []) :
    deque_pop_front d = DRes.fault d := by
  unfold WF at h
  obtain ⟨_, _, hh, _⟩ := h
  have hh0 : d.head = none := hh
  simp [deque_pop_front, hh0]

theorem pop_back_empty {d : Deque} (h : WF d [] []) :
    deque_pop_back d = DRes.fault d := by
  unfold WF at h
  obtain ⟨_, _, _, ht, _⟩ := h
  have ht0 : d.tail = none := ht
  simp [deque_pop_back, ht0]

theorem pop_front_spec {d : Deque} {a0 : Nat} {as : List Nat} {v0 : Int} {vs : List Int}
    (h : WF d (a0 :: as) (v0 :: vs)) :
    ∃ d', deque_pop_front d = DRes.ok v0 d' ∧ WF d' as vs := by
  unfold WF at h
  obtain ⟨hv, hc, hh, ht, hnd, hknd, hbnd, hksub, hlp, hln⟩ := h
  have hh0 : d.head = some a0 := hh
  have hlooks := chain_lookup_some hv
  rw [chainVals_cons, List.map_cons] at hv
  injection hv with hv0 hvrest
  obtain ⟨n0, hn0⟩ : ∃ n0, heapLookup d.heap a0 = some n0 :=
    hlooks a0 (List.mem_cons_self _ _)
  have hn0v : n0.val = v0 := by
    rw [hn0] at hv0
    injection hv0
  cases as with
  | nil =>
    have hvs : vs = [] := by
      cases vs with
      | nil => rfl
      | cons w ws => rw [chainVals_nil] at hvrest; simp at hvrest
    subst hvs
    have ht0 : d.tail = some a0 := by rw [ht]; simp
    refine ⟨{ d with heap := heapFree d.heap a0, head := none, tail := none }, ?_, ?_⟩
    · have hcond : d.head = d.tail := by rw [hh0, ht0]
      simp [deque_pop_front, hh0, hn0, ht0, hn0v]
    · unfold WF
      refine ⟨rfl, List.chain'_nil, rfl, rfl, List.nodup_nil, ?_, ?_, ?_, rfl, rfl⟩
      · exact hknd.sublist ((heapFree_sublist _ _).map _)
      · intro p hp
        exact hbnd p (mem_heapFree hp).1
      · intro p hp
        obtain ⟨hpm, hpa⟩ := mem_heapFree hp
        have hmem := hksub p hpm
        simp at hmem
        exact absurd hmem hpa
  | cons b rest =>
    obtain ⟨tL, htL⟩ : ∃ tL, (b :: rest).getLast? = some tL := by
      cases hgl : (b :: rest).getLast? with
      | none => rw [List.getLast?_eq_none_iff] at hgl; exact absurd hgl (by simp)
      | some x => exact ⟨x, rfl⟩
    have ht0 : d.tail = some tL := by rw [ht, List.getLast?_cons_cons, htL]
    have htLmem : tL ∈ b :: rest := mem_of_getLast?_eq htL
    have ha0notmem : a0 ∉ b :: rest := (List.nodup_cons.mp hnd).1
    have hcond : ¬ some a0 = d.tail := by
      rw [ht0]
      intro heq
      have heq2 : a0 = tL := by injection heq
      exact ha0notmem (by rw [heq2]; exact htLmem)
    have hadj : adjacent d.heap a0 b := (List.chain'_cons.mp hc).1
    have hn0next : n0.next = some b := by
      obtain ⟨h1, _⟩ := hadj
      rw [hn0] at h1
      simp only [Option.map_some'] at h1
      injection h1
    have hfree : ∀ x ∈ b :: rest, heapLookup (heapFree d.heap a0) x = heapLookup d.heap x := by
      intro x hx
      have hxa0 : ¬ x = a0 := fun he => ha0notmem (by rw [← he]; exact hx)
      rw [heapLookup_free, if_neg hxa0]
    refine ⟨{ d with heap := heapFree d.heap a0, head := n0.next }, ?_, ?_⟩
    · simp [deque_pop_front, hh0, hn0, hcond, hn0v]
    · unfold WF
      refine ⟨?_, ?_, ?_, ?_, ?_, ?_, ?_, ?_, ?_, ?_⟩
      · show chainVals (heapFree d.heap a0) (b :: rest) = vs.map some
        have hcv : chainVals (heapFree d.heap a0) (b :: rest) = chainVals d.heap (b :: rest) :=
          chainVals_congr_val (fun x hx => by rw [hfree x hx])
        rw [hcv]
        exact hvrest
      · refine chain'_of_pairs (List.chain'_cons.mp hc).2 ?_
        intro x y hxy hr
        obtain ⟨hx, hy⟩ := List.of_mem_zip hxy
        obtain ⟨hr1, hr2⟩ := hr
        constructor
        · rw [hfree x hx]
          exact hr1
        · rw [hfree y (List.mem_cons_of_mem _ hy)]
          exact hr2
      · show n0.next = (b :: rest).head?
        rw [hn0next]
        rfl
      · show d.tail = (b :: rest).getLast?
        rw [ht, List.getLast?_cons_cons]
      · exact (List.nodup_cons.mp hnd).2
      · exact hknd.sublist ((heapFree_sublist _ _).map _)
      · intro p hp
        exact hbnd p (mem_heapFree hp).1
      · intro p hp
        obtain ⟨hpm, hpa⟩ := mem_heapFree hp
        rcases List.mem_cons.mp (hksub p hpm) with he | hmem
        · exact absurd he hpa
        · exact hmem
      · show looseEndB (heapFree d.heap a0) n0.next Node.prev (b :: rest) = true
        rw [looseEndB_iff]
        intro aT haT n hn bb hbb
        rw [hn0next] at haT
        injection haT with haT
        subst haT
        rw [hfree b (List.mem_cons_self _ _)] at hn
        have hprev : n.prev = some a0 := by
          obtain ⟨_, h2⟩ := hadj
          rw [hn] at h2
          simp only [Option.map_some'] at h2
          injection h2
        rw [hprev] at hbb
        injection hbb with hbb
        subst hbb
        exact ha0notmem
      · show looseEndB (heapFree d.heap a0) d.tail Node.next (b :: rest) = true
        rw [looseEndB_iff]
        intro aT haT n hn bb hbb
        rw [ht0] at haT
        injection haT with haT
        subst haT
        rw [hfree tL htLmem] at hn
        have hold := (looseEndB_iff d.heap d.tail Node.next (a0 :: b :: rest)).mp hln
          tL ht0 n hn bb hbb
        intro hmem
        exact hold (List.mem_cons_of_mem _ hmem)

theorem peek_front_spec {d : Deque} {a0 : Nat} {as : List Nat} {v0 : Int} {vs : List Int}
    (h : WF d (a0 :: as) (v0 :: vs)) :
    deque_peek_front d = DRes.ok v0 d := by
  unfold WF at h
  obtain ⟨hv, _, hh, _⟩ := h
  have hh0 : d.head = some a0 := hh
  rw [chainVals_cons, List.map_cons] at hv
  injection hv with hv0 _
  rcases hn : heapLookup d.heap a0 with _ | n0
  · rw [hn] at hv0; simp at hv0
  · have hval : n0.val = v0 := by
      rw [hn] at hv0
      injection hv0
    simp [deque_peek_front, hh0, hn, hval]

theorem push_back_spec {d : Deque} {as : List Nat} {vs : List Int} (v : Int)
    (h : WF d as vs) :
    ∃ d', deque_push_back true d v = DRes.ok () d' ∧ WF d' (as ++ [d.fresh]) (vs ++ [v]) := by
  obtain ⟨e, he1, he2⟩ := push_front_spec v (WF_flip h)
  refine ⟨e.flip, ?_, ?_⟩
  · rw [deque_push_back_flip, he1]
    rfl
  · have h3 := WF_flip he2
    rw [List.reverse_cons, List.reverse_reverse, List.reverse_cons, List.reverse_reverse] at h3
    exact h3

theorem pop_back_spec {d : Deque} {as : List Nat} {aL : Nat} {vs : List Int} {vL : Int}
    (h : WF d (as ++ [aL]) (vs ++ [vL])) :
    ∃ d', deque_pop_back d = DRes.ok vL d' ∧ WF d' as vs := by
  have h2 := WF_flip h
  simp only [List.reverse_append, List.reverse_singleton, List.singleton_append] at h2
  obtain ⟨e, he1, he2⟩ := pop_front_spec h2
  refine ⟨e.flip, ?_, ?_⟩
  · rw [deque_pop_back_flip, he1]
    rfl
  · have h3 := WF_flip he2
    rw [List.reverse_reverse, List.reverse_reverse] at h3
    exact h3

theorem peek_back_spec {d : Deque} {as : List Nat} {aL : Nat} {vs : List Int} {vL : Int}
    (h : WF d (as ++ [aL]) (vs ++ [vL])) :
    deque_peek_back d = DRes.ok vL d := by
  have h2 := WF_flip h
  simp only [List.reverse_append, List.reverse_singleton, List.singleton_append] at h2
  rw [deque_peek_back_flip, peek_front_spec h2]
  show DRes.ok vL d.flip.flip = DRes.ok vL d
  rw [dequeFlip_flip]

theorem WF_mkDeque : WF mkDeque [] [] := by decide

theorem WF_length {d : Deque} {as : List Nat} {vs : List Int} (h : WF d as vs) :
    as.length = vs.length := by
  unfold WF at h
  have hlen := congrArg List.length h.1
  simpa [chainVals] using hlen

theorem WF_nil_vs {d : Deque} {vs : List Int} (h : WF d [] vs) : vs = [] := by
  have hl := WF_length h
  cases vs with
  | nil => rfl
  | cons w ws => simp at hl

theorem WF_vs_nil {d : Deque} {as : List Nat} (h : WF d as []) : as = [] := by
  have hl := WF_length h
  cases as with
  | nil => rfl
  | cons a t => simp at hl

theorem WF_cons_shape {d : Deque} {as : List Nat} {v0 : Int} {vs : List Int}
    (h : WF d as (v0 :: vs)) : ∃ a0 as2, as = a0 :: as2 := by
  have hl := WF_length h
  cases as with
  | nil => simp at hl
  | cons a0 as2 => exact ⟨a0, as2, rfl⟩

theorem WF_snoc_shape {d : Deque} {as : List Nat} {vs : List Int} {vL : Int}
    (h : WF d as (vs ++ [vL])) : ∃ as2 aL, as = as2 ++ [aL] := by
  have hl := WF_length h
  rcases List.eq_nil_or_concat as with rfl | ⟨as2, aL, he⟩
  · simp at hl
  · exact ⟨as2, aL, by rw [he, List.concat_eq_append]⟩

theorem peek_front_state {d e : Deque} {v : Int}
    (h : deque_peek_front d = DRes.ok v e) : e = d := by
  rcases hh : d.head with _ | hA
  · simp [deque_peek_front, hh] at h
  · rcases hl : heapLookup d.heap hA with _ | n
    · simp [deque_peek_front, hh, hl] at h
    · simp only [deque_peek_front, hh, hl] at h
      injection h with h1 h2
      exact h2.symm

theorem peek_back_state {d e : Deque} {v : Int}
    (h : deque_peek_back d = DRes.ok v e) : e = d := by
  rcases hh : d.tail with _ | tA
  · simp [deque_peek_back, hh] at h
  · rcases hl : heapLookup d.heap tA with _ | n
    · simp [deque_peek_back, hh, hl] at h
    · simp only [deque_peek_back, hh, hl] at h
      injection h with h1 h2
      exact h2.symm

theorem reachable_WF {d : Deque} (h : Reachable d) : ∃ as vs, WF d as vs := by
  induction h with
  | alloc => exact ⟨[], [], WF_mkDeque⟩
  | push_front d0 d' v hd hs ih =>
    obtain ⟨as, vs, hwf⟩ := ih
    obtain ⟨e, he1, he2⟩ := push_front_spec v hwf
    rw [hs] at he1
    injection he1 with h1 h2
    subst h2
    exact ⟨_, _, he2⟩
  | push_back d0 d' v hd hs ih =>
    obtain ⟨as, vs, hwf⟩ := ih
    obtain ⟨e, he1, he2⟩ := push_back_spec v hwf
    rw [hs] at he1
    injection he1 with h1 h2
    subst h2
    exact ⟨_, _, he2⟩
  | pop_front d0 d' v hd hs ih =>
    obtain ⟨as, vs, hwf⟩ := ih
    cases vs with
    | nil =>
      have has := WF_vs_nil hwf
      subst has
      rw [pop_front_empty hwf] at hs
      exact absurd hs (by simp)
    | cons v0 vs2 =>
      obtain ⟨a0, as2, hshape⟩ := WF_cons_shape hwf
      subst hshape
      obtain ⟨e, he1, he2⟩ := pop_front_spec hwf
      rw [hs] at he1
      injection he1 with h1 h2
      subst h2
      exact ⟨_, _, he2⟩
  | pop_back d0 d' v hd hs ih =>
    obtain ⟨as, vs, hwf⟩ := ih
    rcases List.eq_nil_or_concat vs with rfl | ⟨vs2, vL, hvs⟩
    · have has := WF_vs_nil hwf
      subst has
      rw [pop_back_empty hwf] at hs
      exact absurd hs (by simp)
    · rw [hvs, List.concat_eq_append] at hwf
      obtain ⟨as2, aL, hshape⟩ := WF_snoc_shape hwf
      subst hshape
      obtain ⟨e, he1, he2⟩ := pop_back_spec hwf
      rw [hs] at he1
      injection he1 with h1 h2
      subst h2
      exact ⟨_, _, he2⟩
  | peek_front d0 d' v hd hs ih =>
    obtain ⟨as, vs, hwf⟩ := ih
    rw [peek_front_state hs]
    exact ⟨_, _, hwf⟩
  | peek_back d0 d' v hd hs ih =>
    obtain ⟨as, vs, hwf⟩ := ih
    rw [peek_back_state hs]
    exact ⟨_, _, hwf⟩

theorem drainFront_take : ∀ {as : List Nat} {d : Deque} {vs : List Int}, WF d as vs →
    ∀ n, n ≤ vs.length → drainFront n d = vs.take n := by
  intro as
  induction as with
  | nil =>
    intro d vs h n hn
    have hvs := WF_nil_vs h
    subst hvs
    cases n with
    | zero => rfl
    | succ m => exact absurd hn (by simp)
  | cons a0 rest ih =>
    intro d vs h n hn
    cases vs with
    | nil =>
      have := WF_vs_nil h
      simp at this
    | cons v0 vs2 =>
      cases n with
      | zero => rfl
      | succ m =>
        obtain ⟨e, he1, he2⟩ := pop_front_spec h
        have hm : m ≤ vs2.length := by
          simp at hn
          omega
        show drainFront (m + 1) d = (v0 :: vs2).take (m + 1)
        simp only [drainFront, he1, List.take_succ_cons]
        rw [ih he2 m hm]

theorem drainFront_spec {d : Deque} {as : List Nat} {vs : List Int} (h : WF d as vs) :
    drainFront vs.length d = vs := by
  rw [drainFront_take h vs.length (le_refl _), List.take_length]

theorem drainBack_eq_flip : ∀ (n : Nat) (d : Deque), drainBack n d = drainFront n d.flip := by
  intro n
  induction n with
  | zero => intro d; rfl
  | succ m ih =>
    intro d
    rcases hp : deque_pop_front d.flip with ⟨v, e⟩ | ⟨e⟩
    · have hb : deque_pop_back d = DRes.ok v e.flip := by
        rw [deque_pop_back_flip, hp]
        rfl
      simp only [drainBack, drainFront, hb, hp]
      rw [ih, dequeFlip_flip]
    · have hb : deque_pop_back d = DRes.fault e.flip := by
        rw [deque_pop_back_flip, hp]
        rfl
      simp only [drainBack, drainFront, hb, hp]

theorem drainBack_take {d : Deque} {as : List Nat} {vs : List Int} (h : WF d as vs) :
    ∀ n, n ≤ vs.length → drainBack n d = vs.reverse.take n := by
  intro n hn
  rw [drainBack_eq_flip]
  exact drainFront_take (WF_flip h) n (by simpa using hn)

theorem drainBack_spec {d : Deque} {as : List Nat} {vs : List Int} (h : WF d as vs) :
    drainBack vs.length d = vs.reverse := by
  rw [drainBack_take h vs.length (le_refl _)]
  rw [show vs.length = vs.reverse.length from (List.length_reverse vs).symm, List.take_length]

theorem pushAllBack_spec : ∀ (ws : List Int) {d : Deque} {as : List Nat} {vs : List Int},
    WF d as vs → ∃ d' as', pushAllBack d ws = some d' ∧ WF d' as' (vs ++ ws) := by
  intro ws
  induction ws with
  | nil =>
    intro d as vs h
    exact ⟨d, as, rfl, by simpa using h⟩
  | cons w ws2 ih =>
    intro d as vs h
    obtain ⟨e, he1, he2⟩ := push_back_spec w h
    obtain ⟨d', as', hp, hw⟩ := ih he2
    refine ⟨d', as', ?_, ?_⟩
    · show pushAllBack d (w :: ws2) = some d'
      simp only [pushAllBack, he1]
      exact hp
    · have hassoc : (vs ++ [w]) ++ ws2 = vs ++ (w :: ws2) := by
        rw [List.append_assoc]
        rfl
      rw [← hassoc]
      exact hw

theorem pushAllFront_spec : ∀ (ws : List Int) {d : Deque} {as : List Nat} {vs : List Int},
    WF d as vs → ∃ d' as', pushAllFront d ws = some d' ∧ WF d' as' (ws.reverse ++ vs) := by
  intro ws
  induction ws with
  | nil =>
    intro d as vs h
    exact ⟨d, as, rfl, by simpa using h⟩
  | cons w ws2 ih =>
    intro d as vs h
    obtain ⟨e, he1, he2⟩ := push_front_spec w h
    obtain ⟨d', as', hp, hw⟩ := ih he2
    refine ⟨d', as', ?_, ?_⟩
    · show pushAllFront d (w :: ws2) = some d'
      simp only [pushAllFront, he1]
      exact hp
    · have hassoc : (w :: ws2).reverse ++ vs = ws2.reverse ++ (w :: vs) := by
        rw [List.reverse_cons, List.append_assoc]
        rfl
      rw [hassoc]
      exact hw

theorem run_refines : ∀ (ops : List DequeOp) {d : Deque} {as : List Nat} {l : List Int},
    WF d as l → ∀ {tr : List (Option Int)} {fin : List Int},
    absRun l ops = some (tr, fin) →
    ∃ d' as', concRun d ops = some (tr, d') ∧ WF d' as' fin := by
  intro ops
  induction ops with
  | nil =>
    intro d as l h tr fin habs
    simp only [absRun, Option.some.injEq, Prod.mk.injEq] at habs
    obtain ⟨h1, h2⟩ := habs
    subst h1
    subst h2
    exact ⟨d, as, rfl, h⟩
  | cons op ops2 ih =>
    intro d as l h tr fin habs
    cases op with
    | pushFront v =>
      simp only [absRun, absStep] at habs
      rcases hrec : absRun (v :: l) ops2 with _ | ⟨tr2, fin2⟩
      · rw [hrec] at habs
        simp at habs
      · rw [hrec] at habs
        simp only [Option.some.injEq, Prod.mk.injEq] at habs
        obtain ⟨h1, h2⟩ := habs
        subst h1
        subst h2
        obtain ⟨e, he1, he2⟩ := push_front_spec v h
        obtain ⟨d', as', hcr, hwf⟩ := ih he2 hrec
        refine ⟨d', as', ?_, hwf⟩
        simp only [concRun, concStep, he1, hcr]
    | pushBack v =>
      simp only [absRun, absStep] at habs
      rcases hrec : absRun (l ++ [v]) ops2 with _ | ⟨tr2, fin2⟩
      · rw [hrec] at habs
        simp at habs
      · rw [hrec] at habs
        simp only [Option.some.injEq, Prod.mk.injEq] at habs
        obtain ⟨h1, h2⟩ := habs
        subst h1
        subst h2
        obtain ⟨e, he1, he2⟩ := push_back_spec v h
        obtain ⟨d', as', hcr, hwf⟩ := ih he2 hrec
        refine ⟨d', as', ?_, hwf⟩
        simp only [concRun, concStep, he1, hcr]
    | popFront =>
      cases l with
      | nil => simp [absRun, absStep] at habs
      | cons v0 l2 =>
        simp only [absRun, absStep] at habs
        rcases hrec : absRun l2 ops2 with _ | ⟨tr2, fin2⟩
        · rw [hrec] at habs
          simp at habs
        · rw [hrec] at habs
          simp only [Option.some.injEq, Prod.mk.injEq] at habs
          obtain ⟨h1, h2⟩ := habs
          subst h1
          subst h2
          obtain ⟨a0, as2, hsh⟩ := WF_cons_shape h
          subst hsh
          obtain ⟨e, he1, he2⟩ := pop_front_spec h
          obtain ⟨d', as', hcr, hwf⟩ := ih he2 hrec
          refine ⟨d', as', ?_, hwf⟩
          simp only [concRun, concStep, he1, hcr]
    | popBack =>
      rcases hgl : l.getLast? with _ | vL
      · simp [absRun, absStep, hgl] at habs
      · have hld : l.dropLast ++ [vL] = l :=
          List.dropLast_append_getLast? vL (by rw [Option.mem_def]; exact hgl)
        simp only [absRun, absStep, hgl] at habs
        rcases hrec : absRun l.dropLast ops2 with _ | ⟨tr2, fin2⟩
        · rw [hrec] at habs
          simp at habs
        · rw [hrec] at habs
          simp only [Option.some.injEq, Prod.mk.injEq] at habs
          obtain ⟨h1, h2⟩ := habs
          subst h1
          subst h2
          rw [← hld] at h
          obtain ⟨as2, aL, hsh⟩ := WF_snoc_shape h
          subst hsh
          obtain ⟨e, he1, he2⟩ := pop_back_spec h
          obtain ⟨d', as', hcr, hwf⟩ := ih he2 hrec
          refine ⟨d', as', ?_, hwf⟩
          simp only [concRun, concStep, he1, hcr]

/-- C2: evaluation of the code at the failing input.  On an empty deque all
four access operations dereference the absent head/tail pointer — the run
faults (the C undefined behavior) instead of producing a defined, recoverable
EmptyDequeAccess result. -/
theorem c2_empty_access_faults :
    deque_pop_front mkDeque = DRes.fault mkDeque ∧
    deque_pop_back mkDeque = DRes.fault mkDeque ∧
    deque_peek_front mkDeque = DRes.fault mkDeque ∧
    deque_peek_back mkDeque = DRes.fault mkDeque := by
  refine ⟨rfl, rfl, rfl, rfl⟩

/-- C3 counterexample: the reachable state push_back 1; push_back 2;
pop_front is non-empty, yet its head node's prev pointer is not absent — it
still holds the freed first node's address 0, because deque_pop_front never
clears the successor's prev link. -/
theorem c3_counterexample :
    Reachable c3state ∧ deque_is_empty c3state = false ∧
    (headNode c3state).map Node.prev = some (some 0) := by
  have h1 : Reachable (resState (deque_push_back true mkDeque 1)) :=
    Reachable.push_back _ _ 1 Reachable.alloc (by decide)
  have h2 : Reachable c4d2 :=
    Reachable.push_back _ _ 2 h1 (by decide)
  have h3 : Reachable c3state :=
    Reachable.pop_front _ _ 1 h2 (by decide)
  exact ⟨h3, by decide, by decide⟩

/-- C3 (amended): in every reachable state the head node's prev pointer and
the tail node's next pointer reference no live node — each is either absent
or dangles at an already-freed address.  The original absence claim fails:
pop_front and pop_back leave the neighbouring node's link to the freed node
in place (see the counterexample), while pushes do establish absence. -/
theorem c3_amended (d : Deque) (hr : Reachable d) :
    (∀ n, headNode d = some n → ∀ b, n.prev = some b → b ∉ liveAddrs d) ∧
    (∀ n, tailNode d = some n → ∀ b, n.next = some b → b ∉ liveAddrs d) := by
  obtain ⟨as, vs, hwf⟩ := reachable_WF hr
  unfold WF at hwf
  obtain ⟨hv, hc, hh, ht, hnd, hknd, hbnd, hksub, hlp, hln⟩ := hwf
  constructor
  · intro n hn b hb hmem
    rcases hhd : d.head with _ | a
    · rw [headNode, hhd] at hn
      simp at hn
    · rw [headNode, hhd] at hn
      have hn2 : heapLookup d.heap a = some n := hn
      have hnot := (looseEndB_iff d.heap d.head Node.prev as).mp hlp a hhd n hn2 b hb
      unfold liveAddrs at hmem
      obtain ⟨p, hp, hpb⟩ := List.mem_map.mp hmem
      exact hnot (hpb ▸ hksub p hp)
  · intro n hn b hb hmem
    rcases htl : d.tail with _ | a
    · rw [tailNode, htl] at hn
      simp at hn
    · rw [tailNode, htl] at hn
      have hn2 : heapLookup d.heap a = some n := hn
      have hnot := (looseEndB_iff d.heap d.tail Node.next as).mp hln a htl n hn2 b hb
      unfold liveAddrs at hmem
      obtain ⟨p, hp, hpb⟩ := List.mem_map.mp hmem
      exact hnot (hpb ▸ hksub p hp)

/-- C3 amended witness: the amended property evaluated at the concrete
reachable state of the counterexample. -/
theorem c3_amended_witness :
    (∀ n, headNode c3state = some n → ∀ b, n.prev = some b → b ∉ liveAddrs c3state) ∧
    (∀ n, tailNode c3state = some n → ∀ b, n.next = some b → b ∉ liveAddrs c3state) := by
  have h1 : Reachable (resState (deque_push_back true mkDeque 1)) :=
    Reachable.push_back _ _ 1 Reachable.alloc (by decide)
  have h2 : Reachable c4d2 :=
    Reachable.push_back _ _ 2 h1 (by decide)
  exact c3_amended c3state (Reachable.pop_front _ _ 1 h2 (by decide))

/-- C4: the concrete scenario — push_back 1; push_back 2; push_front 0 gives
front-to-back [0,1,2]; pop_front returns 0 leaving [1,2]; pop_back returns 2
leaving [1]; is_empty is false; pop_front returns 1; is_empty is true. -/
theorem c4_concrete_scenario :
    deque_push_back true mkDeque 1 = DRes.ok () (resState (deque_push_back true mkDeque 1)) ∧
    deque_push_back true (resState (deque_push_back true mkDeque 1)) 2 = DRes.ok () c4d2 ∧
    deque_push_front true c4d2 0 = DRes.ok () c4d3 ∧
    drainFront 3 c4d3 = [0, 1, 2] ∧
    deque_pop_front c4d3 = DRes.ok 0 c4d4 ∧
    drainFront 2 c4d4 = [1, 2] ∧
    deque_pop_back c4d4 = DRes.ok 2 c4d5 ∧
    drainFront 1 c4d5 = [1] ∧
    deque_is_empty c4d5 = false ∧
    deque_pop_front c4d5 = DRes.ok 1 c4d6 ∧
    deque_is_empty c4d6 = true := by
  decide

/-- C9: on every failing invocation — allocation failure in create or in a
push, empty-deque access in a pop or a peek — the deque memory at the moment
of the failure is exactly the input state: no link or end-pointer update has
happened. -/
theorem c9_no_partial_mutation_on_failure (d : Deque) (v : Int) :
    deque_alloc false = none ∧
    deque_push_front false d v = DRes.fault d ∧
    deque_push_back false d v = DRes.fault d ∧
    (d.head = none → deque_pop_front d = DRes.fault d ∧ deque_peek_front d = DRes.fault d) ∧
    (d.tail = none → deque_pop_back d = DRes.fault d ∧ deque_peek_back d = DRes.fault d) := by
  refine ⟨rfl, rfl, rfl, ?_, ?_⟩
  · intro hh
    exact ⟨by simp [deque_pop_front, hh], by simp [deque_peek_front, hh]⟩
  · intro ht
    exact ⟨by simp [deque_pop_back, ht], by simp [deque_peek_back, ht]⟩

/-- C9 witness: the failure cases evaluated on the empty deque. -/
theorem c9_witness :
    deque_push_front false mkDeque 0 = DRes.fault mkDeque ∧
    deque_pop_front mkDeque = DRes.fault mkDeque ∧
    deque_pop_back mkDeque = DRes.fault mkDeque :=
  ⟨(c9_no_partial_mutation_on_failure mkDeque 0).2.1,
   ((c9_no_partial_mutation_on_failure mkDeque 0).2.2.2.1 rfl).1,
   ((c9_no_partial_mutation_on_failure mkDeque 0).2.2.2.2 rfl).1⟩

/-- C1: refinement against the reference list model.  For every interleaved
operation sequence that the reference double-ended-queue model (a list with
insertion and removal at both ends) executes without popping an empty deque,
the C implementation started on a fresh deque executes the same sequence,
every step returns the same value as the model (the trace `tr`), after the
run the deque's chain holds exactly the model's final list, and reading the
deque out by repeated pop_front yields that list.  Since `ops` is universally
quantified, the per-step agreement follows by instantiating every prefix. -/
theorem c1_deque_refines_list_model (ops : List DequeOp) (tr : List (Option Int))
    (fin : List Int) (habs : absRun [] ops = some (tr, fin)) :
    ∃ d as, concRun mkDeque ops = some (tr, d) ∧ WF d as fin ∧
      drainFront fin.length d = fin := by
  obtain ⟨d, as, hcr, hwf⟩ := run_refines ops WF_mkDeque habs
  exact ⟨d, as, hcr, hwf, drainFront_spec hwf⟩

/-- C1 witness: the refinement applied to the concrete operation sequence
push_back 1; push_front 0; pop_back. -/
theorem c1_witness :
    ∃ d as,
      concRun mkDeque [DequeOp.pushBack 1, DequeOp.pushFront 0, DequeOp.popBack]
        = some ([none, none, some 1], d) ∧
      WF d as [0] ∧ drainFront 1 d = [0] :=
  c1_deque_refines_list_model
    [DequeOp.pushBack 1, DequeOp.pushFront 0, DequeOp.popBack]
    [none, none, some 1] [0] (by decide)

/-- C5: FIFO behavior — pushing any list of values with push_back onto a
fresh deque and then popping with pop_front returns them in order. -/
theorem c5_fifo (ws : List Int) :
    ∃ d, pushAllBack mkDeque ws = some d ∧ drainFront ws.length d = ws := by
  obtain ⟨d, as, hp, hw⟩ := pushAllBack_spec ws WF_mkDeque
  refine ⟨d, hp, ?_⟩
  have hd := drainFront_spec hw
  simpa using hd

/-- C6: LIFO behavior at either end — pushing any list of values onto one
end of any reachable deque and popping the same number from that same end
returns them in reverse push order. -/
theorem c6_lifo (d : Deque) (hr : Reachable d) (ws : List Int) :
    (∃ d1, pushAllFront d ws = some d1 ∧ drainFront ws.length d1 = ws.reverse) ∧
    (∃ d2, pushAllBack d ws = some d2 ∧ drainBack ws.length d2 = ws.reverse) := by
  obtain ⟨as, vs, hwf⟩ := reachable_WF hr
  constructor
  · obtain ⟨d1, as1, hp, hw⟩ := pushAllFront_spec ws hwf
    refine ⟨d1, hp, ?_⟩
    have ht := drainFront_take hw ws.length (by simp)
    rw [ht, show ws.length = ws.reverse.length from (List.length_reverse ws).symm,
      List.take_left]
  · obtain ⟨d2, as2, hp, hw⟩ := pushAllBack_spec ws hwf
    refine ⟨d2, hp, ?_⟩
    have ht := drainBack_take hw ws.length (by simp)
    rw [ht, List.reverse_append,
      show ws.length = ws.reverse.length from (List.length_reverse ws).symm,
      List.take_left]

/-- C6 witness: LIFO at both ends from the fresh deque with values [1, 2]. -/
theorem c6_witness :
    (∃ d1, pushAllFront mkDeque [1, 2] = some d1 ∧ drainFront 2 d1 = [2, 1]) ∧
    (∃ d2, pushAllBack mkDeque [1, 2] = some d2 ∧ drainBack 2 d2 = [2, 1]) :=
  c6_lifo mkDeque Reachable.alloc [1, 2]

/-- C7: in every reachable state the head pointer is absent exactly when the
tail pointer is absent, which happens exactly when the deque holds no
values; deque_is_empty returns true exactly when head is absent; and in a
one-element deque head and tail hold the same node address. -/
theorem c7_end_pointer_invariants (d : Deque) (hr : Reachable d) :
    ∃ as vs, WF d as vs ∧
      (d.head = none ↔ d.tail = none) ∧
      (deque_is_empty d = true ↔ d.head = none) ∧
      (deque_is_empty d = true ↔ vs = []) ∧
      (vs.length = 1 → ∃ a, d.head = some a ∧ d.tail = some a) := by
  obtain ⟨as, vs, hwf⟩ := reachable_WF hr
  have h0 := hwf
  unfold WF at h0
  obtain ⟨hv, hc, hh, ht, hrest⟩ := h0
  refine ⟨as, vs, hwf, ?_, ?_, ?_, ?_⟩
  · rw [hh, ht]
    cases as with
    | nil => simp
    | cons a t => simp [List.getLast?_eq_none_iff]
  · show d.head.isNone = true ↔ d.head = none
    exact Option.isNone_iff_eq_none
  · show d.head.isNone = true ↔ vs = []
    rw [Option.isNone_iff_eq_none]
    constructor
    · intro hhd
      rw [hh, List.head?_eq_none_iff] at hhd
      subst hhd
      exact WF_nil_vs hwf
    · intro hvs
      subst hvs
      have has := WF_vs_nil hwf
      rw [hh, has]
      rfl
  · intro hlen
    have halen : as.length = 1 := by rw [WF_length hwf]; exact hlen
    cases as with
    | nil => simp at halen
    | cons a t =>
      cases t with
      | nil => exact ⟨a, hh, by rw [ht]; simp⟩
      | cons b t2 => simp at halen

/-- C7 witness: the invariants evaluated at the fresh deque. -/
theorem c7_witness :
    ∃ as vs, WF mkDeque as vs ∧
      (mkDeque.head = none ↔ mkDeque.tail = none) ∧
      (deque_is_empty mkDeque = true ↔ mkDeque.head = none) ∧
      (deque_is_empty mkDeque = true ↔ vs = []) ∧
      (vs.length = 1 → ∃ a, mkDeque.head = some a ∧ mkDeque.tail = some a) :=
  c7_end_pointer_invariants mkDeque Reachable.alloc

/-- C8: on every non-empty reachable deque both peeks succeed, return a
value, and leave the deque memory (heap, both end pointers, allocator state)
completely unchanged; being functions of the unchanged state, repeated peeks
return the same value. -/
theorem c8_peek_frame (d : Deque) (hr : Reachable d) (hne : deque_is_empty d = false) :
    ∃ v w, deque_peek_front d = DRes.ok v d ∧ deque_peek_back d = DRes.ok w d := by
  obtain ⟨as, vs, hwf⟩ := reachable_WF hr
  have hh : ¬ d.head = none := by
    intro h0
    unfold deque_is_empty at hne
    rw [h0] at hne
    simp at hne
  cases as with
  | nil =>
    have h0 := hwf
    unfold WF at h0
    exact absurd h0.2.2.1 hh
  | cons a0 as2 =>
    cases vs with
    | nil =>
      have := WF_vs_nil hwf
      simp at this
    | cons v0 vs2 =>
      have hpf := peek_front_spec hwf
      rcases List.eq_nil_or_concat (v0 :: vs2) with hne2 | ⟨vs3, vL, hve⟩
      · simp at hne2
      · rw [hve, List.concat_eq_append] at hwf
        obtain ⟨as3, aL, hae⟩ := WF_snoc_shape hwf
        rw [hae] at hwf
        exact ⟨v0, vL, hpf, peek_back_spec hwf⟩

/-- C8 witness: the peek frame property on a concrete one-element deque. -/
theorem c8_witness :
    ∃ v w, deque_peek_front oneDeque = DRes.ok v oneDeque ∧
      deque_peek_back oneDeque = DRes.ok w oneDeque :=
  c8_peek_frame oneDeque
    (Reachable.push_back mkDeque oneDeque 7 Reachable.alloc (by decide)) (by decide)

/-- C10: on every non-empty reachable deque, peek_front returns exactly the
value an immediately following pop_front returns, and peek_back exactly the
value an immediately following pop_back returns. -/
theorem c10_peek_pop_agree (d : Deque) (hr : Reachable d) (hne : deque_is_empty d = false) :
    ∃ v w d1 d2, deque_peek_front d = DRes.ok v d ∧ deque_pop_front d = DRes.ok v d1 ∧
      deque_peek_back d = DRes.ok w d ∧ deque_pop_back d = DRes.ok w d2 := by
  obtain ⟨as, vs, hwf⟩ := reachable_WF hr
  have hh : ¬ d.head = none := by
    intro h0
    unfold deque_is_empty at hne
    rw [h0] at hne
    simp at hne
  cases as with
  | nil =>
    have h0 := hwf
    unfold WF at h0
    exact absurd h0.2.2.1 hh
  | cons a0 as2 =>
    cases vs with
    | nil =>
      have := WF_vs_nil hwf
      simp at this
    | cons v0 vs2 =>
      have hpf := peek_front_spec hwf
      obtain ⟨e1, hpo, _⟩ := pop_front_spec hwf
      rcases List.eq_nil_or_concat (v0 :: vs2) with hne2 | ⟨vs3, vL, hve⟩
      · simp at hne2
      · rw [hve, List.concat_eq_append] at hwf
        obtain ⟨as3, aL, hae⟩ := WF_snoc_shape hwf
        rw [hae] at hwf
        obtain ⟨e2, hpo2, _⟩ := pop_back_spec hwf
        exact ⟨v0, vL, e1, e2, hpf, hpo, peek_back_spec hwf, hpo2⟩

/-- C10 witness: peek/pop agreement on a concrete one-element deque. -/
theorem c10_witness :
    ∃ v w d1 d2, deque_peek_front oneDeque = DRes.ok v oneDeque ∧
      deque_pop_front oneDeque = DRes.ok v d1 ∧
      deque_peek_back oneDeque = DRes.ok w oneDeque ∧
      deque_pop_back oneDeque = DRes.ok w d2 :=
  c10_peek_pop_agree oneDeque
    (Reachable.push_back mkDeque oneDeque 7 Reachable.alloc (by decide)) (by decide)
